import Mathlib

/-!
Shallow embedding of `pipimi.py` (a fixed-point pip-style version resolver).

Python dictionaries are embedded as association lists with unique keys in
insertion order (`lookupA` / `setA`), Python sets of specifier sets as
duplicate-free lists (`insertCS`), and the `defaultdict(list)` accumulator of
newly derived constraints as an association list with per-key append
(`appendA`).  The external `packaging` library (version parsing, specifier
satisfaction, requirement parsing), which is a third-party collaborator and
not part of the repository, is modelled for the fragment the program's data
exercises: versions made of dotted numeric release segments (compared
component-wise with trailing zeros stripped, as `packaging.version` does via
its comparison key), and requirement strings of the shape
`name [op version {, op version}] [; marker]`.
-/

set_option synthInstance.maxSize 1024

deriving instance DecidableEq for Except

namespace Pipimi

/-- First-match lookup in an association list, as Python `dict.get`. -/
def lookupA {κ α : Type} [DecidableEq κ] : List (κ × α) → κ → Option α
  | [], _ => none
  | (k, v) :: rest, key => if k = key then some v else lookupA rest key

/-- Update-or-append in an association list, as Python `dict.__setitem__`:
an existing key keeps its position, a new key is appended at the end. -/
def setA {κ α : Type} [DecidableEq κ] : List (κ × α) → κ → α → List (κ × α)
  | [], key, v => [(key, v)]
  | (k, w) :: rest, key, v =>
    if k = key then (k, v) :: rest else (k, w) :: setA rest key v

/-- Append one value to the list held at a key, as Python
`defaultdict(list)[key].append(v)`. -/
def appendA {κ α : Type} [DecidableEq κ] : List (κ × List α) → κ → α → List (κ × List α)
  | [], key, v => [(key, [v])]
  | (k, vs) :: rest, key, v =>
    if k = key then (k, vs ++ [v]) :: rest else (k, vs) :: appendA rest key v

/-- Membership-based insertion, as Python `set.add` on a set embedded as a
duplicate-free list: adding a present element is a no-op. -/
def insertCS {α : Type} [DecidableEq α] (s : List α) (x : α) : List α :=
  if x ∈ s then s else s ++ [x]

/-- Python `str.lower()` (character-wise lowering, which agrees with it on
the ASCII package names the program handles). -/
def lowerStr (s : String) : String := ⟨s.data.map Char.toLower⟩

/-! ## Versions (model of `packaging.version`, release segments only) -/

/-- A parsed version: its numeric release segments. -/
abbrev PVersion := List Nat

/-- Drop leading spaces. -/
def dropSpaces (l : List Char) : List Char := l.dropWhile (· = ' ')

/-- Trim spaces at both ends. -/
def trimChars (l : List Char) : List Char :=
  (dropSpaces (dropSpaces l.reverse).reverse)

/-- Split a character list on a separator character. -/
def splitOnChar (sep : Char) : List Char → List (List Char)
  | [] => [[]]
  | c :: rest =>
    let r := splitOnChar sep rest
    if c = sep then [] :: r
    else
      match r with
      | [] => [[c]]
      | h :: t => (c :: h) :: t

/-- Parse a nonempty all-digit character list as a natural number. -/
def parseNatDigits (l : List Char) : Option Nat :=
  if l.isEmpty then none
  else if l.all (·.isDigit) then
    some (l.foldl (fun n c => n * 10 + (c.toNat - 48)) 0)
  else none

/-- Parse a version identifier: dotted numeric release segments
(the fragment of the version grammar the program's data exercises). -/
def parseVersion (s : String) : Option PVersion :=
  (splitOnChar '.' (trimChars s.toList)).mapM parseNatDigits

/-- The comparison key of a release: trailing zero segments are stripped, so
`1.0` and `1` compare equal. -/
def cmpKey (p : PVersion) : List Nat :=
  (p.reverse.dropWhile (· = 0)).reverse

/-- Strict lexicographic order on release keys; a proper prefix is smaller
(tuple comparison of the comparison keys). -/
def pvLt : List Nat → List Nat → Bool
  | [], [] => false
  | [], _ :: _ => true
  | _ :: _, [] => false
  | a :: as, b :: bs =>
    if a < b then true else if a = b then pvLt as bs else false

/-! ## Specifiers and requirements (model of `packaging.specifiers` /
`packaging.requirements`) -/

/-- A specifier operator. -/
inductive Op where
  | eq | ne | lt | le | gt | ge | compatible | arbitrary
deriving DecidableEq, Repr

/-- One version specifier clause: an operator and its version operand. -/
structure Specifier where
  op : Op
  version : String
deriving DecidableEq, Repr

/-- A specifier set: the conjunction of its clauses.  The empty specifier set
is falsy in Python (`if c:` skips it). -/
abbrev SpecifierSet := List Specifier

/-- The set of specifier sets accumulated for one package
(Python `Set[SpecifierSet]`, embedded as a duplicate-free list). -/
abbrev ConstraintSet := List SpecifierSet

/-- Take `n` elements, padding with zero segments. -/
def padTake (l : List Nat) (n : Nat) : List Nat :=
  (l ++ List.replicate n 0).take n

/-- Whether a version (its string form and its parsed release) satisfies one
specifier clause, per the version scheme restricted to release segments. -/
def Specifier.matchesV (s : Specifier) (vstr : String) (p : PVersion) : Bool :=
  match s.op, parseVersion s.version with
  | .arbitrary, _ => vstr == s.version
  | .eq, some q => cmpKey p == cmpKey q
  | .ne, some q => !(cmpKey p == cmpKey q)
  | .lt, some q => pvLt (cmpKey p) (cmpKey q)
  | .gt, some q => pvLt (cmpKey q) (cmpKey p)
  | .le, some q => !(pvLt (cmpKey q) (cmpKey p))
  | .ge, some q => !(pvLt (cmpKey p) (cmpKey q))
  | .compatible, some q =>
    if q.length < 2 then false
    else (!(pvLt (cmpKey p) (cmpKey q))) && (padTake p (q.length - 1) == q.take (q.length - 1))
  | _, none => false

/-- Whether a version satisfies every clause of a specifier set
(Python `version in specifier_set`). -/
def specSetContains (c : SpecifierSet) (vstr : String) (p : PVersion) : Bool :=
  c.all fun s => s.matchesV vstr p

/-- A parsed requirement: name, specifier set and optional environment
marker, as `packaging.requirements.Requirement` (name case is preserved). -/
structure Requirement where
  name : String
  specifier : SpecifierSet
  marker : Option String
deriving DecidableEq, Repr

/-- Characters allowed in a requirement name. -/
def isNameChar (c : Char) : Bool :=
  c.isAlphanum || c = '-' || c = '_' || c = '.'

/-- Break a character list at the first `;`, returning the part before it and,
when a `;` is present, the part after it. -/
def breakAtSemicolon : List Char → List Char × Option (List Char)
  | [] => ([], none)
  | c :: rest =>
    if c = ';' then ([], some rest)
    else
      let r := breakAtSemicolon rest
      (c :: r.1, r.2)

/-- Parse one specifier clause `op version`. -/
def parseSpecClause (l : List Char) : Option Specifier :=
  let mk : Op → List Char → Option Specifier := fun op rest =>
    let v := trimChars rest
    if v.isEmpty then none else some ⟨op, String.mk v⟩
  match trimChars l with
  | '=' :: '=' :: '=' :: rest => mk .arbitrary rest
  | '=' :: '=' :: rest => mk .eq rest
  | '!' :: '=' :: rest => mk .ne rest
  | '<' :: '=' :: rest => mk .le rest
  | '>' :: '=' :: rest => mk .ge rest
  | '~' :: '=' :: rest => mk .compatible rest
  | '<' :: rest => mk .lt rest
  | '>' :: rest => mk .gt rest
  | _ => none

/-- Parse a requirement string `name [clauses] [; marker]`; `none` models a
parse failure (`InvalidRequirement`).  The program memoizes this parse
(`parse_requirement = lru_cache(Requirement)`); caching a pure function is
semantically the function itself. -/
def parseRequirement (s : String) : Option Requirement := do
  let cs := s.toList
  let (pre, mpart) := breakAtSemicolon cs
  let marker : Option String ←
    match mpart with
    | none => some none
    | some m =>
      let t := trimChars m
      if t.isEmpty then none else some (some (String.mk t))
  let pre := dropSpaces pre
  let name := pre.takeWhile isNameChar
  if name.isEmpty then none
  else
    let rest := trimChars (pre.drop name.length)
    let specifier ←
      if rest.isEmpty then some ([] : SpecifierSet)
      else (splitOnChar ',' rest).mapM parseSpecClause
    some ⟨String.mk name, specifier, marker⟩

/-! ## Errors -/

/-- The failures the program can raise: a non-200 registry response
(`ValueError` in `get_json`), `NoAcceptableVersions` (whose message names the
package and the constraint set), an unparsable version (`InvalidVersion`), a
missing `version_infos` key (`KeyError`), an unparsable requirement string
(`InvalidRequirement`), and the failed `assert last_resolution`. -/
inductive PipimiError where
  | fetchError (name : String) (version : Option String)
  | noAcceptableVersions (name : String) (constraints : ConstraintSet)
  | invalidVersion
  | keyError (version : String)
  | malformedRequirement (s : String)
  | assertionFailed
deriving DecidableEq, Repr

/-! ## Registry data and the `Package` model -/

/-- The `info` object of a registry response: canonical name, the version the
response describes, and its declared dependency requirement strings
(`requires_dist`; a missing or null list is the empty list, as
`info.get("requires_dist") or []`). -/
structure Info where
  name : String
  version : String
  requires_dist : List String
deriving DecidableEq, Repr

/-- A registry JSON response: `{info: {...}, releases: {version: ...}}`.
`releases` is the list of release keys (distinct, in JSON object order). -/
structure Blob where
  info : Info
  releases : List String
deriving DecidableEq, Repr

/-- The in-memory package model: lower-cased name, the full set of published
versions, and per-version metadata (`version_infos`). -/
structure Package where
  name : String
  versions : List String
  version_infos : List (String × Info)
deriving DecidableEq, Repr

/-- `Package.add_version_info`: record the blob's `info` under its own
`info["version"]` key. -/
def Package.add_version_info (pkg : Package) (blob : Blob) : Package :=
  { pkg with version_infos := setA pkg.version_infos blob.info.version blob.info }

/-- `Package.__init__`: name is the lower-cased `info["name"]`, `versions`
the keys of `releases`, and the blob's own info is ingested. -/
def Package.ofBlob (blob : Blob) : Package :=
  Package.add_version_info
    { name := lowerStr blob.info.name, versions := blob.releases, version_infos := [] } blob

/-- Every version of a package paired with its parse; `none` when any version
identifier fails to parse (`InvalidVersion`). -/
def parsedVersions (pkg : Package) : Option (List (String × PVersion)) :=
  pkg.versions.mapM fun v => (parseVersion v).map fun p => (v, p)

/-- The acceptable versions under a constraint set: if the set is truthy
(nonempty) keep the versions satisfying every truthy specifier set in it,
otherwise all versions qualify. -/
def acceptableOf (cs : ConstraintSet) (parsed : List (String × PVersion)) :
    List (String × PVersion) :=
  if cs.isEmpty then parsed
  else parsed.filter fun vp => cs.all fun c => c.isEmpty || specSetContains c vp.1 vp.2

/-- Python `max(xs, key=parse)` over a nonempty list: keep the first element
whose key is maximal (a later element replaces only when strictly greater). -/
def maxByKey (best : String × PVersion) : List (String × PVersion) → String × PVersion
  | [] => best
  | x :: xs => maxByKey (if pvLt (cmpKey best.2) (cmpKey x.2) then x else best) xs

/-- `Package.get_best_version`: the maximum, under the parsed-version
ordering, of the versions satisfying every truthy constraint;
`NoAcceptableVersions` (naming the package and the constraints) when none
qualifies. -/
def Package.get_best_version (pkg : Package) (constraints : ConstraintSet) :
    Except PipimiError String :=
  match parsedVersions pkg with
  | none => .error .invalidVersion
  | some parsed =>
    match acceptableOf constraints parsed with
    | [] => .error (.noAcceptableVersions pkg.name constraints)
    | x :: xs => .ok (maxByKey x xs).1

/-- Parse each dependency string, failing on the first malformed one. -/
def parseReqList : List String → Except PipimiError (List Requirement)
  | [] => .ok []
  | d :: rest =>
    match parseRequirement d with
    | none => .error (.malformedRequirement d)
    | some r => (parseReqList rest).map (r :: ·)

/-- `Package.get_requirements`: the parsed `requires_dist` of a previously
ingested version (`KeyError` when the version was never ingested). -/
def Package.get_requirements (pkg : Package) (version : String) :
    Except PipimiError (List Requirement) :=
  match lookupA pkg.version_infos version with
  | none => .error (.keyError version)
  | some info => parseReqList info.requires_dist

/-! ## Registry client (`get_pypi_data`) and universe (`Pypiverse`) -/

/-- The remote registry: the package-index response for a name, and the
version-detail response for a name and version.  `none` models a non-200
status. -/
structure Net where
  index : String → Option Blob
  detail : String → String → Option Blob

/-- The on-disk cache.  The source keys it by the path
`cache/{name.lower()}[@{version}].json`; this path is a deterministic,
injective encoding of the pair (lower-cased name, optional version) for
valid package names, so the cache is embedded keyed by that pair, and the
stable JSON round-trip (`json.dump` then `json.load`) is the identity. -/
structure Disk where
  entries : List ((String × Option String) × Blob)
deriving DecidableEq, Repr

/-- Python truthiness of the `version` argument: `None` and the empty string
both select the package-index shape. -/
def normVer : Option String → Option String
  | none => none
  | some v => if v.isEmpty then none else some v

/-- One registry fetch (`get_json`), by response shape. -/
def fetchNet (net : Net) (name : String) (version : Option String) : Option Blob :=
  match version with
  | none => net.index name
  | some v => net.detail name v

/-- `get_pypi_data`: serve from the on-disk cache when cache reads are
allowed and the entry exists; otherwise fetch from the registry and write
the response to the cache.  The returned `Nat` counts network calls made
(0 or 1). -/
def get_pypi_data (net : Net) (name : String) (version : Option String)
    (allow_cache_read : Bool) (disk : Disk) : Except PipimiError (Blob × Disk × Nat) :=
  let v := normVer version
  let key := (lowerStr name, v)
  match (if allow_cache_read then lookupA disk.entries key else none) with
  | some b => .ok (b, disk, 0)
  | none =>
    match fetchNet net name v with
    | some data => .ok (data, ⟨setA disk.entries key data⟩, 1)
    | none => .error (.fetchError name v)

/-- The in-memory universe: lower-cased package name to `Package`. -/
structure Pypiverse where
  packages : List (String × Package)
deriving DecidableEq, Repr

/-- `Pypiverse.populate`: lower-case the name; reuse the in-memory package
when cache reads are allowed, else (re)construct it from a fresh index fetch
and store it under the package's own lower-cased name; then, when a truthy
version is requested whose info is missing, fetch the version detail and
ingest it (the in-memory entry reflects the mutation).  The `Nat` sums the
network calls of the underlying fetches. -/
def populate (net : Net) (pv : Pypiverse) (disk : Disk) (name0 : String)
    (version : Option String) (allow_cache_read : Bool) :
    Except PipimiError (Package × Pypiverse × Disk × Nat) :=
  let name := lowerStr name0
  let step1 : Except PipimiError (Package × Pypiverse × Disk × Nat) :=
    match (if allow_cache_read then lookupA pv.packages name else none) with
    | some pkg => .ok (pkg, pv, disk, 0)
    | none =>
      match get_pypi_data net name none allow_cache_read disk with
      | .error e => .error e
      | .ok (blob, disk', n) =>
        let pkg := Package.ofBlob blob
        .ok (pkg, Pypiverse.mk (setA pv.packages pkg.name pkg), disk', n)
  match step1 with
  | .error e => .error e
  | .ok (pkg, pv1, disk1, n1) =>
    match normVer version with
    | none => .ok (pkg, pv1, disk1, n1)
    | some v =>
      if (lookupA pkg.version_infos v).isSome then
        .ok (pkg, pv1, disk1, n1)
      else
        match get_pypi_data net name (some v) allow_cache_read disk1 with
        | .error e => .error e
        | .ok (blob, disk2, n2) =>
          let pkg' := pkg.add_version_info blob
          .ok (pkg', Pypiverse.mk (setA pv1.packages pkg.name pkg'), disk2, n1 + n2)

/-! ## The constraint-propagation engine -/

/-- The per-package constraint table (`defaultdict(set)` of specifier sets). -/
abbrev ConstraintTable := List (String × ConstraintSet)

/-- One round's resolution: package name (as written) to chosen version. -/
abbrev Resolution := List (String × String)

/-- The newly-derived-constraints accumulator (`defaultdict(list)`). -/
abbrev NewConstraints := List (String × List SpecifierSet)

/-- `get_best_constrained_version`: attempt 1 resolves with cache reads
allowed; only on `NoAcceptableVersions` is there a second (and last) attempt
with cache reads disabled, whose `NoAcceptableVersions` is re-raised. -/
def get_best_constrained_version (net : Net) (pv : Pypiverse) (disk : Disk)
    (package_name : String) (constraint : ConstraintSet) :
    Except PipimiError (Package × String × Pypiverse × Disk) :=
  match populate net pv disk package_name none true with
  | .error e => .error e
  | .ok (pkg1, pv1, d1, _) =>
    match pkg1.get_best_version constraint with
    | .ok v => .ok (pkg1, v, pv1, d1)
    | .error (.noAcceptableVersions _ _) =>
      match populate net pv1 d1 package_name none false with
      | .error e => .error e
      | .ok (pkg2, pv2, d2, _) =>
        match pkg2.get_best_version constraint with
        | .ok v => .ok (pkg2, v, pv2, d2)
        | .error e2 => .error e2
    | .error e => .error e

/-- Fold the dependencies of one resolved version into the accumulator:
a requirement with a marker is skipped entirely; otherwise its specifier is
appended under the dependency's name (case preserved). -/
def addReqs (acc : NewConstraints) : List Requirement → NewConstraints
  | [] => acc
  | req :: rest =>
    addReqs (if req.marker.isSome then acc else appendA acc req.name req.specifier) rest

/-- The state threaded through one resolution round. -/
structure RoundState where
  pv : Pypiverse
  disk : Disk
  resolution : Resolution
  new_constraints : NewConstraints
deriving Repr

/-- The body of `tighten_constraints`' loop for one constrained package:
select its best version (with the one-retry policy), record it in the
round's resolution, ingest the chosen version's metadata, and accumulate its
unconditional dependencies. -/
def processPackage (net : Net) (st : RoundState) (item : String × ConstraintSet) :
    Except PipimiError RoundState :=
  match get_best_constrained_version net st.pv st.disk item.1 item.2 with
  | .error e => .error e
  | .ok (pkg, version, pv1, d1) =>
    match populate net pv1 d1 pkg.name (some version) true with
    | .error e => .error e
    | .ok (pkg2, pv2, d2, _) =>
      match pkg2.get_requirements version with
      | .error e => .error e
      | .ok reqs =>
        .ok ⟨pv2, d2, setA st.resolution item.1 version, addReqs st.new_constraints reqs⟩

/-- The loop of `tighten_constraints` over the table's items. -/
def tightenAux (net : Net) (st : RoundState) : ConstraintTable → Except PipimiError RoundState
  | [] => .ok st
  | item :: rest =>
    match processPackage net st item with
    | .error e => .error e
    | .ok st' => tightenAux net st' rest

/-- `tighten_constraints`: one round over the (pre-round) constraint table,
producing the round's resolution and the separate accumulator of newly
derived constraints. -/
def tighten_constraints (net : Net) (pv : Pypiverse) (disk : Disk)
    (constraints : ConstraintTable) :
    Except PipimiError (Resolution × NewConstraints × Pypiverse × Disk) :=
  match tightenAux net ⟨pv, disk, [], []⟩ constraints with
  | .error e => .error e
  | .ok st => .ok (st.resolution, st.new_constraints, st.pv, st.disk)

/-- Merge the accumulator into the constraint table:
`constraints[name].update(set(rset))` — the entry is created empty when
absent, and each derived specifier set is added with set semantics. -/
def mergeConstraints (cons : ConstraintTable) : NewConstraints → ConstraintTable
  | [] => cons
  | p :: rest =>
    mergeConstraints (setA cons p.1 (p.2.foldl insertCS ((lookupA cons p.1).getD []))) rest

/-- Python `dict` equality on resolutions: same key set, same value per key. -/
def dictBeq (r l : Resolution) : Bool :=
  (r.all fun p => lookupA l p.1 == some p.2) && (l.all fun p => lookupA r p.1 == some p.2)

/-- The round loop of `pipimi`: run a round, merge the derived constraints,
then break iff this round's resolution equals the previous round's (the
first round has no previous resolution); on break, `assert last_resolution`
fails on an empty resolution, else the prior resolution and the merged
table are returned.  `fuel` bounds the number of rounds (`.ok none` means
the bound was reached), since the source's `for round in count(1)` has no
intrinsic bound. -/
def pipimiLoop (net : Net) : Nat → Pypiverse → Disk → ConstraintTable →
    Option Resolution → Except PipimiError (Option (Resolution × ConstraintTable))
  | 0, _, _, _, _ => .ok none
  | fuel + 1, pv, disk, cons, last =>
    match tighten_constraints net pv disk cons with
    | .error e => .error e
    | .ok (res, newc, pv', disk') =>
      let cons' := mergeConstraints cons newc
      match last with
      | some l =>
        if dictBeq res l then
          if l.isEmpty then .error .assertionFailed else .ok (some (l, cons'))
        else pipimiLoop net fuel pv' disk' cons' (some res)
      | none => pipimiLoop net fuel pv' disk' cons' (some res)

/-- Seed the constraint table from the initial requirement strings:
`constraints[req.name].add(req.specifier)`, failing on an unparsable
requirement. -/
def seedConstraints : List String → ConstraintTable → Except PipimiError ConstraintTable
  | [], cons => .ok cons
  | ics :: rest, cons =>
    match parseRequirement ics with
    | none => .error (.malformedRequirement ics)
    | some req =>
      seedConstraints rest
        (setA cons req.name (insertCS ((lookupA cons req.name).getD []) req.specifier))

/-- `pipimi`: seed the table, then run the round loop with a fresh universe
over the given on-disk cache state. -/
def pipimi (net : Net) (disk : Disk) (initial_constraint_strings : List String)
    (fuel : Nat) : Except PipimiError (Option (Resolution × ConstraintTable)) :=
  match seedConstraints initial_constraint_strings [] with
  | .error e => .error e
  | .ok cons => pipimiLoop net fuel ⟨[]⟩ disk cons none

/-! ## Accumulator-free round decomposition (reference form for the frame
property of `tighten_constraints`) -/

/-- The outcome of a round stripped of its accumulators: the sequence of
(package, selected version) assignments, the sequence of derived
(dependency name, specifier) pairs, and the final universe/disk states. -/
structure RoundOut where
  sel : List (String × String)
  der : List (String × SpecifierSet)
  pv : Pypiverse
  disk : Disk
deriving Repr

/-- The round computation with the accumulators factored out: it threads only
the universe and the disk, and returns the assignment and derivation
sequences flatly. -/
def roundOps (net : Net) : Pypiverse → Disk → ConstraintTable → Except PipimiError RoundOut
  | pv, d, [] => .ok ⟨[], [], pv, d⟩
  | pv, d, item :: rest =>
    match get_best_constrained_version net pv d item.1 item.2 with
    | .error e => .error e
    | .ok (pkg, version, pv1, d1) =>
      match populate net pv1 d1 pkg.name (some version) true with
      | .error e => .error e
      | .ok (pkg2, pv2, d2, _) =>
        match pkg2.get_requirements version with
        | .error e => .error e
        | .ok reqs =>
          match roundOps net pv2 d2 rest with
          | .error e => .error e
          | .ok tail =>
            .ok ⟨(item.1, version) :: tail.sel,
              ((reqs.filter fun r => r.marker.isNone).map fun r => (r.name, r.specifier))
                ++ tail.der,
              tail.pv, tail.disk⟩

/-- Replay a sequence of resolution assignments onto an accumulator. -/
def applySel (res : Resolution) : List (String × String) → Resolution
  | [] => res
  | p :: rest => applySel (setA res p.1 p.2) rest

/-- Replay a sequence of derived constraints onto an accumulator. -/
def applyDer (acc : NewConstraints) : List (String × SpecifierSet) → NewConstraints
  | [] => acc
  | p :: rest => applyDer (appendA acc p.1 p.2) rest

/-! ## Well-formedness predicates (for the `versions` / `version_infos`
invariant) -/

/-- The spec's `Package` invariant: `versions` is a superset of the keys of
`version_infos`. -/
def pkgInv (pkg : Package) : Prop :=
  ∀ v ∈ pkg.version_infos.map Prod.fst, v ∈ pkg.versions

/-- The invariant over every package held by the universe. -/
def pvInv (pv : Pypiverse) : Prop := ∀ p ∈ pv.packages, pkgInv p.2

/-- Registry well-formedness: an index response's own `info.version` is among
its releases, and a version-detail response echoes the requested version. -/
def wfNet (net : Net) : Prop :=
  (∀ n b, net.index n = some b → b.info.version ∈ b.releases) ∧
  (∀ n v b, net.detail n v = some b → b.info.version = v)

/-- The same well-formedness for cached responses, by cache-key shape. -/
def wfDisk (d : Disk) : Prop :=
  (∀ n b, lookupA d.entries (n, none) = some b → b.info.version ∈ b.releases) ∧
  (∀ n v b, lookupA d.entries (n, some v) = some b → b.info.version = v)

/-! ## Concrete registries used as witnesses -/

/-- Index blob of `pkgA`: versions 1.0 and 2.0; 2.0 depends on `pkgB<1.5`. -/
def blobA : Blob := ⟨⟨"pkgA", "2.0", ["pkgB<1.5"]⟩, ["1.0", "2.0"]⟩

/-- Version-detail blob of `pkgA`. -/
def blobAv (v : String) : Blob :=
  ⟨⟨"pkgA", v, if v = "2.0" then ["pkgB<1.5"] else []⟩, ["1.0", "2.0"]⟩

/-- Index blob of `pkgB`: versions 1.0, 1.5, 2.0, no dependencies. -/
def blobB : Blob := ⟨⟨"pkgB", "2.0", []⟩, ["1.0", "1.5", "2.0"]⟩

/-- Version-detail blob of `pkgB`. -/
def blobBv (v : String) : Blob := ⟨⟨"pkgB", v, []⟩, ["1.0", "1.5", "2.0"]⟩

/-- The spec's end-to-end scenario registry. -/
def netE2E : Net where
  index := fun n =>
    if n = "pkga" then some blobA else if n = "pkgb" then some blobB else none
  detail := fun n v =>
    if n = "pkga" then some (blobAv v) else if n = "pkgb" then some (blobBv v) else none

/-- A one-package registry: `pkga` with versions 1.0 and 2.0. -/
def blobC2 : Blob := ⟨⟨"pkga", "2.0", []⟩, ["1.0", "2.0"]⟩

/-- Registry for the unsatisfiable-constraints scenario. -/
def netC2 : Net where
  index := fun n => if n = "pkga" then some blobC2 else none
  detail := fun _ _ => none

/-- The unsatisfiable constraint set `>=2.0` and `<1.0`. -/
def csC2 : ConstraintSet := [[⟨.ge, "2.0"⟩], [⟨.lt, "1.0"⟩]]

/-- A registry whose index response's `info.version` (2.0) is not among its
releases (only 1.0). -/
def netC8 : Net where
  index := fun n => if n = "a" then some ⟨⟨"a", "2.0", []⟩, ["1.0"]⟩ else none
  detail := fun _ _ => none

/-- A well-formed one-package registry. -/
def netG : Net where
  index := fun n => if n = "a" then some ⟨⟨"a", "1.0", []⟩, ["1.0"]⟩ else none
  detail := fun n v => if n = "a" then some ⟨⟨"a", v, []⟩, ["1.0"]⟩ else none

/-- A registry whose canonical package name is mixed-case `PkgA`. -/
def net10 : Net where
  index := fun n => if n = "pkga" then some ⟨⟨"PkgA", "1.0", []⟩, ["1.0"]⟩ else none
  detail := fun n v => if n = "pkga" then some ⟨⟨"PkgA", v, []⟩, ["1.0"]⟩ else none

/-- The example package of the conjunction-correctness scenario. -/
def pkgC1 : Package := ⟨"pkga", ["0.9", "1.0", "1.5", "2.0"], []⟩

/-- The constraints `>=1.0` and `<2.0` as two accumulated specifier sets. -/
def csC1 : ConstraintSet := [[⟨.ge, "1.0"⟩], [⟨.lt, "2.0"⟩]]

/-- The parses of `pkgC1`'s versions. -/
def parsedC1 : List (String × PVersion) :=
  [("0.9", [0, 9]), ("1.0", [1, 0]), ("1.5", [1, 5]), ("2.0", [2, 0])]

/-! ## Association-list lemmas -/

theorem lookupA_setA_self {κ α : Type} [DecidableEq κ] (l : List (κ × α)) (k : κ) (v : α) :
    lookupA (setA l k v) k = some v := by
  induction l with
  | nil => simp [setA, lookupA]
  | cons p rest ih =>
    by_cases h : p.1 = k
    · simp [setA, h, lookupA]
    · simp [setA, h, lookupA, ih]

theorem lookupA_setA_ne {κ α : Type} [DecidableEq κ] (l : List (κ × α)) (k k' : κ) (v : α)
    (h : k' ≠ k) : lookupA (setA l k v) k' = lookupA l k' := by
  induction l with
  | nil => simp [setA, lookupA, Ne.symm h]
  | cons p rest ih =>
    obtain ⟨k0, w⟩ := p
    by_cases hp : k0 = k
    · subst hp
      simp [setA, lookupA, Ne.symm h]
    · by_cases hp' : k0 = k'
      · simp [setA, hp, lookupA, hp', h]
      · simp [setA, hp, lookupA, hp', ih]

theorem mem_of_lookupA {κ α : Type} [DecidableEq κ] (l : List (κ × α)) (k : κ) (v : α)
    (h : lookupA l k = some v) : (k, v) ∈ l := by
  induction l with
  | nil => simp [lookupA] at h
  | cons p rest ih =>
    obtain ⟨k0, w⟩ := p
    by_cases hp : k0 = k
    · subst hp
      simp only [lookupA, if_pos rfl] at h
      have h2 : w = v := Option.some.inj h
      subst h2
      exact List.mem_cons_self _ _
    · simp only [lookupA, if_neg hp] at h
      exact List.mem_cons_of_mem _ (ih h)

theorem lookupA_eq_of_mem_nodup {κ α : Type} [DecidableEq κ] (l : List (κ × α)) (k : κ) (v : α)
    (hnd : (l.map Prod.fst).Nodup) (h : (k, v) ∈ l) : lookupA l k = some v := by
  induction l with
  | nil => cases h
  | cons p rest ih =>
    simp only [List.map_cons, List.nodup_cons] at hnd
    rcases List.mem_cons.mp h with h1 | h1
    · rw [← h1]
      simp [lookupA]
    · have hk : p.1 ≠ k := by
        intro e
        exact hnd.1 (e ▸ List.mem_map.mpr ⟨(k, v), h1, rfl⟩)
      simp only [lookupA, hk, if_neg, not_false_iff]
      exact ih hnd.2 h1

theorem setA_ne_nil {κ α : Type} [DecidableEq κ] (l : List (κ × α)) (k : κ) (v : α) :
    setA l k v ≠ [] := by
  cases l with
  | nil => simp [setA]
  | cons p rest =>
    by_cases h : p.1 = k <;> simp [setA, h]

theorem mem_setA {κ α : Type} [DecidableEq κ] (l : List (κ × α)) (k : κ) (v : α) (x : κ × α)
    (h : x ∈ setA l k v) : x ∈ l ∨ x = (k, v) := by
  induction l with
  | nil => simp [setA] at h; right; exact h
  | cons p rest ih =>
    by_cases hp : p.1 = k
    · simp only [setA, hp, if_pos] at h
      rcases List.mem_cons.mp h with h1 | h1
      · right; rw [h1, ← hp]
      · left; exact List.mem_cons_of_mem _ h1
    · simp only [setA, hp, if_neg, not_false_iff] at h
      rcases List.mem_cons.mp h with h1 | h1
      · left; rw [h1]; exact List.mem_cons_self _ _
      · rcases ih h1 with h2 | h2
        · left; exact List.mem_cons_of_mem _ h2
        · right; exact h2

theorem map_fst_setA {κ α : Type} [DecidableEq κ] (l : List (κ × α)) (k : κ) (v : α) :
    (setA l k v).map Prod.fst =
      if k ∈ l.map Prod.fst then l.map Prod.fst else l.map Prod.fst ++ [k] := by
  induction l with
  | nil => simp [setA]
  | cons p rest ih =>
    obtain ⟨k0, w⟩ := p
    by_cases hp : k0 = k
    · subst hp
      simp [setA]
    · have hne : ¬ k = k0 := fun e => hp e.symm
      by_cases hm : k ∈ rest.map Prod.fst <;>
        simp [setA, hp, ih, hm, hne]

theorem nodup_setA {κ α : Type} [DecidableEq κ] (l : List (κ × α)) (k : κ) (v : α)
    (h : (l.map Prod.fst).Nodup) : ((setA l k v).map Prod.fst).Nodup := by
  rw [map_fst_setA]
  by_cases hm : k ∈ l.map Prod.fst
  · simpa [hm] using h
  · simp only [hm, if_neg, not_false_iff]
    exact List.Nodup.append h (List.nodup_singleton k) (by simpa using hm)

theorem lookupA_appendA_ne {κ α : Type} [DecidableEq κ] (l : List (κ × List α)) (k k' : κ)
    (v : α) (h : k' ≠ k) : lookupA (appendA l k v) k' = lookupA l k' := by
  induction l with
  | nil => simp [appendA, lookupA, Ne.symm h]
  | cons p rest ih =>
    obtain ⟨k0, vs⟩ := p
    by_cases hp : k0 = k
    · subst hp
      simp [appendA, lookupA, Ne.symm h]
    · by_cases hp' : k0 = k'
      · simp [appendA, hp, lookupA, hp', h]
      · simp [appendA, hp, lookupA, hp', ih]

/-! ## Order lemmas for the version comparison -/

theorem pvLt_irrefl (a : List Nat) : pvLt a a = false := by
  induction a with
  | nil => rfl
  | cons x xs ih => simp [pvLt, ih]

theorem pvLt_trans : ∀ a b c : List Nat, pvLt a b = true → pvLt b c = true → pvLt a c = true := by
  intro a
  induction a with
  | nil =>
    intro b c hab hbc
    cases b with
    | nil => simp [pvLt] at hab
    | cons y ys =>
      cases c with
      | nil => simp [pvLt] at hbc
      | cons z zs => simp [pvLt]
  | cons x xs ih =>
    intro b c hab hbc
    cases b with
    | nil => simp [pvLt] at hab
    | cons y ys =>
      cases c with
      | nil => simp [pvLt] at hbc
      | cons z zs =>
        by_cases hxy : x < y
        · by_cases hyz : y < z
          · simp [pvLt, lt_trans hxy hyz]
          · by_cases hyz' : y = z
            · subst hyz'
              simp [pvLt, hxy]
            · simp [pvLt, hyz, hyz'] at hbc
        · by_cases hxy' : x = y
          · subst hxy'
            by_cases hxz : x < z
            · simp [pvLt, hxz]
            · by_cases hxz' : x = z
              · subst hxz'
                simp only [pvLt, if_neg hxz, if_pos rfl] at hab hbc ⊢
                exact ih ys zs hab hbc
              · simp [pvLt, hxz, hxz'] at hbc
          · simp [pvLt, hxy, hxy'] at hab

theorem pvLt_trichot : ∀ a b : List Nat, pvLt a b = true ∨ pvLt b a = true ∨ a = b := by
  intro a
  induction a with
  | nil =>
    intro b
    cases b with
    | nil => right; right; rfl
    | cons y ys => left; simp [pvLt]
  | cons x xs ih =>
    intro b
    cases b with
    | nil => right; left; simp [pvLt]
    | cons y ys =>
      rcases Nat.lt_trichotomy x y with h | h | h
      · left; simp [pvLt, h]
      · subst h
        rcases ih ys with h2 | h2 | h2
        · left; simp [pvLt, h2]
        · right; left; simp [pvLt, h2]
        · subst h2; right; right; rfl
      · right; left; simp [pvLt, h]

theorem pvLt_asymm (a b : List Nat) (h : pvLt a b = true) : pvLt b a = false := by
  cases hba : pvLt b a
  · rfl
  · have := pvLt_trans a b a h hba
    rw [pvLt_irrefl] at this
    exact absurd this (by simp)

theorem pvLt_false_trans (a b c : List Nat) (hab : pvLt a b = false) (hbc : pvLt b c = false) :
    pvLt a c = false := by
  cases hac : pvLt a c
  · rfl
  · exfalso
    rcases pvLt_trichot c b with h | h | h
    · have := pvLt_trans a c b hac h
      rw [hab] at this
      exact absurd this (by simp)
    · rw [h] at hbc
      exact absurd hbc (by simp)
    · subst h
      rw [hab] at hac
      exact absurd hac (by simp)

theorem pvLt_false_of_lt (m b y : List Nat) (hby : pvLt b y = true) (hmy : pvLt m y = false) :
    pvLt m b = false := by
  cases hmb : pvLt m b
  · rfl
  · have := pvLt_trans m b y hmb hby
    rw [hmy] at this
    exact absurd this (by simp)

/-! ## Lemmas about `maxByKey` -/

theorem maxByKey_mem : ∀ (l : List (String × PVersion)) (b : String × PVersion),
    maxByKey b l ∈ b :: l := by
  intro l
  induction l with
  | nil =>
    intro b
    simp [maxByKey]
  | cons y ys ih =>
    intro b
    by_cases hc : pvLt (cmpKey b.2) (cmpKey y.2) = true
    · have h := ih y
      simp only [maxByKey, hc, if_pos]
      rcases List.mem_cons.mp h with h1 | h1
      · rw [h1]; exact List.mem_cons_of_mem _ (List.mem_cons_self _ _)
      · exact List.mem_cons_of_mem _ (List.mem_cons_of_mem _ h1)
    · have h := ih b
      simp only [maxByKey, hc, if_neg, Bool.not_eq_true]
      rcases List.mem_cons.mp h with h1 | h1
      · rw [h1]; exact List.mem_cons_self _ _
      · exact List.mem_cons_of_mem _ (List.mem_cons_of_mem _ h1)

theorem maxByKey_ge : ∀ (l : List (String × PVersion)) (b : String × PVersion),
    pvLt (cmpKey (maxByKey b l).2) (cmpKey b.2) = false ∧
      ∀ x ∈ l, pvLt (cmpKey (maxByKey b l).2) (cmpKey x.2) = false := by
  intro l
  induction l with
  | nil =>
    intro b
    exact ⟨pvLt_irrefl _, by simp⟩
  | cons y ys ih =>
    intro b
    by_cases hc : pvLt (cmpKey b.2) (cmpKey y.2) = true
    · have h := ih y
      simp only [maxByKey, hc, if_pos]
      refine ⟨pvLt_false_of_lt _ _ _ hc h.1, ?_⟩
      intro x hx
      rcases List.mem_cons.mp hx with h1 | h1
      · rw [h1]; exact h.1
      · exact h.2 x h1
    · have h := ih b
      have hc' : pvLt (cmpKey b.2) (cmpKey y.2) = false := by
        cases hcc : pvLt (cmpKey b.2) (cmpKey y.2)
        · rfl
        · exact absurd hcc hc
      simp only [maxByKey, hc, if_neg, Bool.not_eq_true]
      refine ⟨h.1, ?_⟩
      intro x hx
      rcases List.mem_cons.mp hx with h1 | h1
      · rw [h1]
        exact pvLt_false_trans _ _ _ h.1 hc'
      · exact h.2 x h1

/-! ## Claim C1: correctness of `get_best_version` -/

/-- C1. `get_best_version` returns a maximum — under the parsed-version
ordering, not string order — of the subset of the package's versions
satisfying every truthy constraint (all versions qualify when the constraint
set is empty or holds only empty specifier sets, which `acceptableOf`
encodes), fails with `NoAcceptableVersions` when that subset is empty, and
on `{0.9, 1.0, 1.5, 2.0}` under `>=1.0` and `<2.0` returns `1.5`.  The last
conjunct shows the ordering is numeric, not lexicographic: `1.10 > 1.9`. -/
theorem claim_C1 :
    (∀ (pkg : Package) (cs : ConstraintSet) (parsed : List (String × PVersion)) (v : String),
      parsedVersions pkg = some parsed → pkg.get_best_version cs = .ok v →
      ∃ p, (v, p) ∈ acceptableOf cs parsed ∧
        ∀ w q, (w, q) ∈ acceptableOf cs parsed → pvLt (cmpKey p) (cmpKey q) = false) ∧
    (∀ (pkg : Package) (cs : ConstraintSet) (parsed : List (String × PVersion)),
      parsedVersions pkg = some parsed → acceptableOf cs parsed = [] →
      pkg.get_best_version cs = .error (.noAcceptableVersions pkg.name cs)) ∧
    pkgC1.get_best_version csC1 = .ok "1.5" ∧
    (Package.mk "p" ["1.9", "1.10"] []).get_best_version [] = .ok "1.10" := by
  refine ⟨?_, ?_, by decide, by decide⟩
  · intro pkg cs parsed v hp hv
    simp only [Package.get_best_version, hp] at hv
    cases hacc : acceptableOf cs parsed with
    | nil => rw [hacc] at hv; simp at hv
    | cons x xs =>
      rw [hacc] at hv
      simp only [Except.ok.injEq] at hv
      refine ⟨(maxByKey x xs).2, ?_, ?_⟩
      · rw [← hv]
        simpa using maxByKey_mem xs x
      · intro w q hwq
        rcases List.mem_cons.mp hwq with h1 | h1
        · have hq : x.2 = q := by rw [← h1]
          rw [← hq]
          exact (maxByKey_ge xs x).1
        · exact (maxByKey_ge xs x).2 (w, q) h1
  · intro pkg cs parsed hp hacc
    simp only [Package.get_best_version, hp, hacc]

/-- Witness for C1: the general maximality statement instantiated at the
conjunction-correctness example, where the returned version is `1.5`. -/
theorem claim_C1_witness :
    ∃ p, ("1.5", p) ∈ acceptableOf csC1 parsedC1 ∧
      ∀ w q, (w, q) ∈ acceptableOf csC1 parsedC1 → pvLt (cmpKey p) (cmpKey q) = false :=
  claim_C1.1 pkgC1 csC1 parsedC1 "1.5" (by decide) (by decide)

/-! ## Claim C7: cache round trip of `get_pypi_data` -/

theorem get_pypi_data_ok_lookup {net : Net} {name : String} {ver : Option String}
    {flag : Bool} {disk : Disk} {b : Blob} {d' : Disk} {n : Nat}
    (h : get_pypi_data net name ver flag disk = .ok (b, d', n)) :
    lookupA d'.entries (lowerStr name, normVer ver) = some b := by
  simp only [get_pypi_data] at h
  split at h
  · next b0 heq =>
    simp only [Except.ok.injEq, Prod.mk.injEq] at h
    obtain ⟨rfl, rfl, rfl⟩ := h
    cases flag with
    | false => simp at heq
    | true => simpa using heq
  · next heq =>
    split at h
    · next data hf =>
      simp only [Except.ok.injEq, Prod.mk.injEq] at h
      obtain ⟨rfl, rfl, rfl⟩ := h
      exact lookupA_setA_self _ _ _
    · exact absurd h (by simp)

theorem get_pypi_data_roundtrip {net : Net} {name : String} {ver : Option String}
    {flag : Bool} {disk : Disk} {b : Blob} {d' : Disk} {n : Nat}
    (h : get_pypi_data net name ver flag disk = .ok (b, d', n)) :
    get_pypi_data net name ver true d' = .ok (b, d', 0) := by
  have hl := get_pypi_data_ok_lookup h
  simp [get_pypi_data, hl]

/-- C7. Fetching with any cache setting and then fetching again with cache
reads allowed makes zero network calls, changes nothing on disk, and returns
the identical blob; and after any successful fetch the cache holds the
returned blob under the lower-cased name and (truthiness-normalized)
optional version. -/
theorem claim_C7 :
    (∀ (net : Net) (name : String) (ver : Option String) (flag : Bool) (disk : Disk)
      (b : Blob) (d' : Disk) (n : Nat),
      get_pypi_data net name ver flag disk = .ok (b, d', n) →
      get_pypi_data net name ver true d' = .ok (b, d', 0)) ∧
    (∀ (net : Net) (name : String) (ver : Option String) (flag : Bool) (disk : Disk)
      (b : Blob) (d' : Disk) (n : Nat),
      get_pypi_data net name ver flag disk = .ok (b, d', n) →
      lookupA d'.entries (lowerStr name, normVer ver) = some b) :=
  ⟨fun _ _ _ _ _ _ _ _ h => get_pypi_data_roundtrip h,
   fun _ _ _ _ _ _ _ _ h => get_pypi_data_ok_lookup h⟩

/-- Witness for C7: a concrete first fetch (one network call, cache write)
followed by a cache-served refetch. -/
theorem claim_C7_witness :
    get_pypi_data netG "a" none true
        (Disk.mk [(("a", none), ⟨⟨"a", "1.0", []⟩, ["1.0"]⟩)]) =
      .ok (⟨⟨"a", "1.0", []⟩, ["1.0"]⟩,
        Disk.mk [(("a", none), ⟨⟨"a", "1.0", []⟩, ["1.0"]⟩)], 0) :=
  claim_C7.1 netG "a" none true ⟨[]⟩ ⟨⟨"a", "1.0", []⟩, ["1.0"]⟩
    (Disk.mk [(("a", none), ⟨⟨"a", "1.0", []⟩, ["1.0"]⟩)]) 1 (by decide)

/-! ## Claim C5: marker-bearing dependencies contribute nothing -/

/-- C5. The accumulator update of a round equals the one computed from only
the marker-free dependencies, and when every dependency carrying a given
name has a marker, the accumulator is unchanged at that name. -/
theorem claim_C5 :
    (∀ (acc : NewConstraints) (reqs : List Requirement),
      addReqs acc reqs = addReqs acc (reqs.filter fun r => r.marker.isNone)) ∧
    (∀ (acc : NewConstraints) (reqs : List Requirement) (name : String),
      (∀ r ∈ reqs, r.name = name → r.marker.isSome) →
      lookupA (addReqs acc reqs) name = lookupA acc name) := by
  constructor
  · intro acc reqs
    induction reqs generalizing acc with
    | nil => rfl
    | cons r rest ih =>
      cases hm : r.marker with
      | none => simp [addReqs, List.filter_cons, hm, ih]
      | some m => simp [addReqs, List.filter_cons, hm, ih]
  · intro acc reqs name h
    induction reqs generalizing acc with
    | nil => rfl
    | cons r rest ih =>
      have hr := h r (List.mem_cons_self r rest)
      have htail : ∀ x ∈ rest, x.name = name → x.marker.isSome :=
        fun x hx => h x (List.mem_cons_of_mem _ hx)
      cases hm : r.marker with
      | some m =>
        simp only [addReqs, hm, Option.isSome_some, if_pos]
        exact ih acc htail
      | none =>
        have hne : r.name ≠ name := by
          intro e
          have := hr e
          rw [hm] at this
          simp at this
        simp only [addReqs, hm, Option.isSome_none, Bool.false_eq_true, if_neg,
          not_false_iff]
        rw [ih _ htail]
        exact lookupA_appendA_ne _ _ _ _ (Ne.symm hne)

/-- Witness for C5: a single marker-bearing dependency adds nothing under
its name. -/
theorem claim_C5_witness :
    lookupA
        (addReqs [] [Requirement.mk "x" [⟨.ge, "1.0"⟩] (some "python_version < \"3\"")])
        "x" =
      lookupA ([] : NewConstraints) "x" :=
  claim_C5.2 [] [⟨"x", [⟨.ge, "1.0"⟩], some "python_version < \"3\""⟩] "x" (by decide)

/-! ## Claim C4: constraints only accumulate -/

theorem mem_insertCS {α : Type} [DecidableEq α] (s : List α) (x y : α) (h : x ∈ s) :
    x ∈ insertCS s y := by
  unfold insertCS
  split
  · exact h
  · exact List.mem_append_left _ h

theorem mem_foldl_insertCS {α : Type} [DecidableEq α] :
    ∀ (l : List α) (s : List α) (x : α), x ∈ s → x ∈ l.foldl insertCS s := by
  intro l
  induction l with
  | nil => intro s x h; simpa using h
  | cons y ys ih =>
    intro s x h
    simp only [List.foldl_cons]
    exact ih _ x (mem_insertCS s x y h)

theorem merge_mono :
    ∀ (newc : NewConstraints) (cons : ConstraintTable) (name : String) (s : ConstraintSet),
      lookupA cons name = some s →
      ∃ s', lookupA (mergeConstraints cons newc) name = some s' ∧ ∀ x ∈ s, x ∈ s' := by
  intro newc
  induction newc with
  | nil => intro cons name s h; exact ⟨s, h, fun x hx => hx⟩
  | cons p rest ih =>
    intro cons name s h
    simp only [mergeConstraints]
    by_cases hk : name = p.1
    · obtain ⟨s', hs', hsub⟩ :=
        ih (setA cons p.1 (p.2.foldl insertCS ((lookupA cons p.1).getD []))) p.1
          (p.2.foldl insertCS ((lookupA cons p.1).getD [])) (lookupA_setA_self _ _ _)
      rw [hk]
      refine ⟨s', hs', fun x hx => hsub x ?_⟩
      rw [← hk, h]
      simp only [Option.getD_some]
      exact mem_foldl_insertCS p.2 s x hx
    · exact ih _ name s (by rw [lookupA_setA_ne _ _ _ _ hk]; exact h)

theorem loop_extends :
    ∀ (fuel : Nat) (net : Net) (pv : Pypiverse) (d : Disk) (cons : ConstraintTable)
      (last : Option Resolution) (r : Resolution) (c : ConstraintTable),
      pipimiLoop net fuel pv d cons last = .ok (some (r, c)) →
      ∀ name s, lookupA cons name = some s → ∃ s', lookupA c name = some s' ∧ ∀ x ∈ s, x ∈ s' := by
  intro fuel
  induction fuel with
  | zero => intro net pv d cons last r c h; simp [pipimiLoop] at h
  | succ fuel ih =>
    intro net pv d cons last r c h name s hs
    rw [pipimiLoop] at h
    cases ht : tighten_constraints net pv d cons with
    | error e => rw [ht] at h; exact absurd h (by simp)
    | ok out =>
      obtain ⟨res, newc, pv', disk'⟩ := out
      rw [ht] at h
      cases last with
      | none =>
        simp only at h
        obtain ⟨s1, hs1, hsub1⟩ := merge_mono newc cons name s hs
        obtain ⟨s', hs', hsub'⟩ := ih net pv' disk' _ _ r c h name s1 hs1
        exact ⟨s', hs', fun x hx => hsub' x (hsub1 x hx)⟩
      | some l =>
        simp only at h
        by_cases hdb : dictBeq res l = true
        · rw [if_pos hdb] at h
          by_cases hemp : l.isEmpty
          · rw [if_pos hemp] at h; exact absurd h (by simp)
          · rw [if_neg hemp] at h
            simp only [Except.ok.injEq, Option.some.injEq, Prod.mk.injEq] at h
            obtain ⟨_, hc⟩ := h
            rw [← hc]
            exact merge_mono newc cons name s hs
        · rw [if_neg hdb] at h
          obtain ⟨s1, hs1, hsub1⟩ := merge_mono newc cons name s hs
          obtain ⟨s', hs', hsub'⟩ := ih net pv' disk' _ _ r c h name s1 hs1
          exact ⟨s', hs', fun x hx => hsub' x (hsub1 x hx)⟩

/-- C4. A re-derived identical constraint is a set no-op; merging the round's
accumulator only extends each package's constraint set; and across the whole
engine run each name's seeded or accumulated constraint set is preserved
into the final table. -/
theorem claim_C4 :
    (∀ (s : ConstraintSet) (x : SpecifierSet), x ∈ s → insertCS s x = s) ∧
    (∀ (cons : ConstraintTable) (newc : NewConstraints) (name : String) (s : ConstraintSet),
      lookupA cons name = some s →
      ∃ s', lookupA (mergeConstraints cons newc) name = some s' ∧ ∀ x ∈ s, x ∈ s') ∧
    (∀ (net : Net) (fuel : Nat) (pv : Pypiverse) (d : Disk) (cons : ConstraintTable)
      (last : Option Resolution) (r : Resolution) (c : ConstraintTable),
      pipimiLoop net fuel pv d cons last = .ok (some (r, c)) →
      ∀ name s, lookupA cons name = some s →
        ∃ s', lookupA c name = some s' ∧ ∀ x ∈ s, x ∈ s') :=
  ⟨fun s x h => by simp [insertCS, h],
   fun cons newc name s h => merge_mono newc cons name s h,
   fun net fuel pv d cons last r c h name s hs => loop_extends fuel net pv d cons last r c h name s hs⟩

/-- Witness for C4: the end-to-end scenario's engine run extends the seeded
constraint set of `pkgA` into the final table. -/
theorem claim_C4_witness :
    ∃ s', lookupA
        [("pkgA", [[Specifier.mk .ge "1.0"]]), ("pkgB", [[Specifier.mk .lt "1.5"]])] "pkgA" =
        some s' ∧
      ∀ x ∈ [[Specifier.mk .ge "1.0"]], x ∈ s' := by
  have h := claim_C4.2.2 netE2E 5 ⟨[]⟩ ⟨[]⟩ [("pkgA", [[Specifier.mk .ge "1.0"]])] none
    [("pkgA", "2.0"), ("pkgB", "1.0")]
    [("pkgA", [[Specifier.mk .ge "1.0"]]), ("pkgB", [[Specifier.mk .lt "1.5"]])]
    (by decide) "pkgA" [[Specifier.mk .ge "1.0"]] (by decide)
  exact h

/-! ## Claim C3: the loop breaks exactly on resolution equality -/

theorem dictBeq_iff (r l : Resolution) (hr : (r.map Prod.fst).Nodup)
    (hl : (l.map Prod.fst).Nodup) :
    dictBeq r l = true ↔ ∀ k, lookupA r k = lookupA l k := by
  constructor
  · intro h k
    rw [dictBeq, Bool.and_eq_true] at h
    obtain ⟨hA, hB⟩ := h
    rw [List.all_eq_true] at hA hB
    cases hrk : lookupA r k with
    | some v =>
      have := hA (k, v) (mem_of_lookupA r k v hrk)
      simp only [beq_iff_eq] at this
      rw [this]
    | none =>
      cases hlk : lookupA l k with
      | none => rfl
      | some w =>
        have := hB (k, w) (mem_of_lookupA l k w hlk)
        simp only [beq_iff_eq] at this
        rw [hrk] at this
        exact absurd this (by simp)
  · intro h
    rw [dictBeq, Bool.and_eq_true]
    constructor <;> rw [List.all_eq_true] <;> intro p hp <;> simp only [beq_iff_eq]
    · rw [← h p.1]
      exact lookupA_eq_of_mem_nodup r p.1 p.2 hr hp
    · rw [h p.1]
      exact lookupA_eq_of_mem_nodup l p.1 p.2 hl hp

theorem processPackage_ok_resolution {net : Net} {st : RoundState}
    {item : String × ConstraintSet} {st' : RoundState}
    (h : processPackage net st item = .ok st') :
    ∃ v reqs, st'.resolution = setA st.resolution item.1 v ∧
      st'.new_constraints = addReqs st.new_constraints reqs := by
  unfold processPackage at h
  split at h
  · exact absurd h (by simp)
  · split at h
    · exact absurd h (by simp)
    · split at h
      · exact absurd h (by simp)
      · simp only [Except.ok.injEq] at h
        rw [← h]
        exact ⟨_, _, rfl, rfl⟩

theorem tightenAux_nodup :
    ∀ (items : ConstraintTable) (net : Net) (st st' : RoundState),
      tightenAux net st items = .ok st' →
      (st.resolution.map Prod.fst).Nodup → (st'.resolution.map Prod.fst).Nodup := by
  intro items
  induction items with
  | nil =>
    intro net st st' h hnd
    simp only [tightenAux, Except.ok.injEq] at h
    rw [← h]
    exact hnd
  | cons item rest ih =>
    intro net st st' h hnd
    rw [tightenAux] at h
    cases hp : processPackage net st item with
    | error e => rw [hp] at h; exact absurd h (by simp)
    | ok st1 =>
      rw [hp] at h
      obtain ⟨v, reqs, hres, _⟩ := processPackage_ok_resolution hp
      refine ih net st1 st' h ?_
      rw [hres]
      exact nodup_setA _ _ _ hnd

theorem tighten_res_nodup {net : Net} {pv : Pypiverse} {d : Disk} {cons : ConstraintTable}
    {r : Resolution} {newc : NewConstraints} {pv' : Pypiverse} {d' : Disk}
    (h : tighten_constraints net pv d cons = .ok (r, newc, pv', d')) :
    (r.map Prod.fst).Nodup := by
  unfold tighten_constraints at h
  cases ha : tightenAux net ⟨pv, d, [], []⟩ cons with
  | error e => rw [ha] at h; exact absurd h (by simp)
  | ok st =>
    rw [ha] at h
    simp only [Except.ok.injEq, Prod.mk.injEq] at h
    rw [← h.1]
    exact tightenAux_nodup cons net _ st ha (by simp)

/-- C3. After a successful round, the engine recurses when there was no prior
resolution (the first round never converges); with a prior resolution it
returns that resolution together with the merged constraint table exactly
when the two resolutions agree as finite maps (same name set, same version
per name), and recurses exactly when they disagree somewhere. -/
theorem claim_C3 :
    ∀ (net : Net) (pv : Pypiverse) (d : Disk) (cons : ConstraintTable) (r : Resolution)
      (newc : NewConstraints) (pv' : Pypiverse) (d' : Disk),
      tighten_constraints net pv d cons = .ok (r, newc, pv', d') →
      (∀ fuel, pipimiLoop net (fuel + 1) pv d cons none
          = pipimiLoop net fuel pv' d' (mergeConstraints cons newc) (some r)) ∧
      (∀ (fuel : Nat) (l : Resolution), (l.map Prod.fst).Nodup →
        ((∀ k, lookupA r k = lookupA l k) →
          pipimiLoop net (fuel + 1) pv d cons (some l)
            = if l.isEmpty then .error .assertionFailed
              else .ok (some (l, mergeConstraints cons newc))) ∧
        ((¬ ∀ k, lookupA r k = lookupA l k) →
          pipimiLoop net (fuel + 1) pv d cons (some l)
            = pipimiLoop net fuel pv' d' (mergeConstraints cons newc) (some r))) := by
  intro net pv d cons r newc pv' d' ht
  have hrnd := tighten_res_nodup ht
  constructor
  · intro fuel
    rw [pipimiLoop, ht]
  · intro fuel l hlnd
    constructor
    · intro heq
      have hdb : dictBeq r l = true := (dictBeq_iff r l hrnd hlnd).mpr heq
      rw [pipimiLoop, ht]
      simp only [hdb, if_true]
    · intro hne
      have hdb : dictBeq r l = false := by
        cases hd : dictBeq r l
        · rfl
        · exact absurd ((dictBeq_iff r l hrnd hlnd).mp hd) hne
      rw [pipimiLoop, ht]
      simp only [hdb, Bool.false_eq_true, if_false]

/-- Witness for C3: with a prior resolution equal to the round's resolution,
the loop halts and returns it with the merged table. -/
theorem claim_C3_witness :
    pipimiLoop net10 1 ⟨[]⟩ ⟨[]⟩ [("PkgA", [[Specifier.mk .ge "1.0"]])]
        (some [("PkgA", "1.0")])
      = .ok (some ([("PkgA", "1.0")], [("PkgA", [[Specifier.mk .ge "1.0"]])])) := by
  have h := ((claim_C3 net10 ⟨[]⟩ ⟨[]⟩ [("PkgA", [[Specifier.mk .ge "1.0"]])]
      [("PkgA", "1.0")] []
      ⟨[("pkga", ⟨"pkga", ["1.0"], [("1.0", ⟨"PkgA", "1.0", []⟩)]⟩)]⟩
      ⟨[(("pkga", none), ⟨⟨"PkgA", "1.0", []⟩, ["1.0"]⟩)]⟩
      (by decide)).2 0 [("PkgA", "1.0")] (by decide)).1 (fun k => rfl)
  simpa using h

/-! ## Claim C2: retry once without cache, then fail fatally -/

/-- C2. After the first populate, a successful selection returns immediately;
a `NoAcceptableVersions` failure triggers exactly one more attempt with
cache reads disabled whose own failure is final (its error, carrying the
package name and the constraint set, is what the run aborts with).  The
closed conjuncts run the `>=2.0`/`<1.0` scenario: both attempts fail and the
whole run aborts with the error naming the package and constraints. -/
theorem claim_C2 :
    (∀ (net : Net) (pv : Pypiverse) (disk : Disk) (name : String) (cs : ConstraintSet)
      (pkg1 : Package) (pv1 : Pypiverse) (d1 : Disk) (n1 : Nat),
      populate net pv disk name none true = .ok (pkg1, pv1, d1, n1) →
      (∀ v, pkg1.get_best_version cs = .ok v →
        get_best_constrained_version net pv disk name cs = .ok (pkg1, v, pv1, d1)) ∧
      (∀ n0 c0, pkg1.get_best_version cs = .error (.noAcceptableVersions n0 c0) →
        get_best_constrained_version net pv disk name cs =
          (match populate net pv1 d1 name none false with
           | .error e => .error e
           | .ok (pkg2, pv2, d2, _) =>
             match pkg2.get_best_version cs with
             | .ok v => .ok (pkg2, v, pv2, d2)
             | .error e2 => .error e2))) ∧
    get_best_constrained_version netC2 ⟨[]⟩ ⟨[]⟩ "pkga" csC2
      = .error (.noAcceptableVersions "pkga" csC2) ∧
    pipimi netC2 ⟨[]⟩ ["pkga>=2.0", "pkga<1.0"] 5
      = .error (.noAcceptableVersions "pkga" csC2) := by
  refine ⟨?_, by decide, by decide⟩
  intro net pv disk name cs pkg1 pv1 d1 n1 h
  constructor
  · intro v hv
    simp [get_best_constrained_version, h, hv]
  · intro n0 c0 hv
    simp [get_best_constrained_version, h, hv]

/-- Witness for C2: in the unsatisfiable scenario the first attempt's
failure is retried cache-free and the second failure aborts the run with
the package and constraints in the error. -/
theorem claim_C2_witness :
    get_best_constrained_version netC2 ⟨[]⟩ ⟨[]⟩ "pkga" csC2
      = .error (.noAcceptableVersions "pkga" csC2) := by
  have h := (claim_C2.1 netC2 ⟨[]⟩ ⟨[]⟩ "pkga" csC2
      ⟨"pkga", ["1.0", "2.0"], [("2.0", ⟨"pkga", "2.0", []⟩)]⟩
      ⟨[("pkga", ⟨"pkga", ["1.0", "2.0"], [("2.0", ⟨"pkga", "2.0", []⟩)]⟩)]⟩
      ⟨[(("pkga", none), blobC2)]⟩ 1 (by decide)).2 "pkga" csC2 (by decide)
  rw [h]
  decide

/-! ## Claim C9: empty seeds trip the final assertion; nonempty converging
seeds give a nonempty resolution -/

theorem seed_ne_nil :
    ∀ (seeds : List String) (cons cons' : ConstraintTable),
      seedConstraints seeds cons = .ok cons' → (cons ≠ [] ∨ seeds ≠ []) → cons' ≠ [] := by
  intro seeds
  induction seeds with
  | nil =>
    intro cons cons' h hne
    simp only [seedConstraints, Except.ok.injEq] at h
    rw [← h]
    rcases hne with h1 | h1
    · exact h1
    · exact absurd rfl h1
  | cons ics rest ih =>
    intro cons cons' h hne
    rw [seedConstraints] at h
    cases hp : parseRequirement ics with
    | none => rw [hp] at h; exact absurd h (by simp)
    | some req =>
      rw [hp] at h
      exact ih _ cons' h (Or.inl (setA_ne_nil _ _ _))

theorem seed_error_ne :
    ∀ (seeds : List String) (cons : ConstraintTable) (e : PipimiError),
      seedConstraints seeds cons = .error e → e ≠ .assertionFailed := by
  intro seeds
  induction seeds with
  | nil => intro cons e h; exact absurd h (by simp [seedConstraints])
  | cons ics rest ih =>
    intro cons e h
    rw [seedConstraints] at h
    cases hp : parseRequirement ics with
    | none =>
      rw [hp] at h
      simp only [Except.error.injEq] at h
      rw [← h]
      simp
    | some req =>
      rw [hp] at h
      exact ih _ e h

theorem gpd_error_ne {net : Net} {name : String} {ver : Option String} {flag : Bool}
    {disk : Disk} {e : PipimiError} (h : get_pypi_data net name ver flag disk = .error e) :
    e ≠ .assertionFailed := by
  simp only [get_pypi_data] at h
  split at h
  · exact absurd h (by simp)
  · split at h
    · exact absurd h (by simp)
    · simp only [Except.error.injEq] at h
      rw [← h]
      simp

theorem populate_error_ne {net : Net} {pv : Pypiverse} {disk : Disk} {name0 : String}
    {ver : Option String} {flag : Bool} {e : PipimiError}
    (h : populate net pv disk name0 ver flag = .error e) : e ≠ .assertionFailed := by
  simp only [populate] at h
  split at h
  · next e1 heq =>
    cases h
    split at heq
    · exact absurd heq (by simp)
    · split at heq
      · next e2 hg =>
        cases heq
        exact gpd_error_ne hg
      · exact absurd heq (by simp)
  · next pkg pv1 disk1 n1 heq =>
    split at h
    · exact absurd h (by simp)
    · split at h
      · exact absurd h (by simp)
      · split at h
        · next e2 hg =>
          cases h
          exact gpd_error_ne hg
        · exact absurd h (by simp)

theorem gbv_error_ne {pkg : Package} {cs : ConstraintSet} {e : PipimiError}
    (h : pkg.get_best_version cs = .error e) : e ≠ .assertionFailed := by
  simp only [Package.get_best_version] at h
  split at h
  · simp only [Except.error.injEq] at h
    rw [← h]
    simp
  · split at h
    · simp only [Except.error.injEq] at h
      rw [← h]
      simp
    · exact absurd h (by simp)

theorem parseReqList_error_ne :
    ∀ (l : List String) (e : PipimiError), parseReqList l = .error e → e ≠ .assertionFailed := by
  intro l
  induction l with
  | nil => intro e h; exact absurd h (by simp [parseReqList])
  | cons d rest ih =>
    intro e h
    rw [parseReqList] at h
    cases hp : parseRequirement d with
    | none =>
      rw [hp] at h
      simp only [Except.error.injEq] at h
      rw [← h]
      simp
    | some r =>
      rw [hp] at h
      cases hr : parseReqList rest with
      | error e' =>
        rw [hr] at h
        simp only [Except.map, Except.error.injEq] at h
        rw [← h]
        exact ih e' hr
      | ok rs => rw [hr] at h; exact absurd h (by simp [Except.map])

theorem get_requirements_error_ne {pkg : Package} {version : String} {e : PipimiError}
    (h : pkg.get_requirements version = .error e) : e ≠ .assertionFailed := by
  simp only [Package.get_requirements] at h
  split at h
  · simp only [Except.error.injEq] at h
    rw [← h]
    simp
  · exact parseReqList_error_ne _ e h

theorem gbcv_error_ne {net : Net} {pv : Pypiverse} {disk : Disk} {name : String}
    {cs : ConstraintSet} {e : PipimiError}
    (h : get_best_constrained_version net pv disk name cs = .error e) :
    e ≠ .assertionFailed := by
  simp only [get_best_constrained_version] at h
  split at h
  · next e' hp =>
    simp only [Except.error.injEq] at h
    rw [← h]
    exact populate_error_ne hp
  · split at h
    · exact absurd h (by simp)
    · next hbv =>
      split at h
      · next e' hp =>
        simp only [Except.error.injEq] at h
        rw [← h]
        exact populate_error_ne hp
      · split at h
        · exact absurd h (by simp)
        · next e2 hbv2 =>
          simp only [Except.error.injEq] at h
          rw [← h]
          exact gbv_error_ne hbv2
    · next hbv =>
      simp only [Except.error.injEq] at h
      rw [← h]
      exact gbv_error_ne hbv

theorem processPackage_error_ne {net : Net} {st : RoundState} {item : String × ConstraintSet}
    {e : PipimiError} (h : processPackage net st item = .error e) : e ≠ .assertionFailed := by
  simp only [processPackage] at h
  split at h
  · next e' hg =>
    simp only [Except.error.injEq] at h
    rw [← h]
    exact gbcv_error_ne hg
  · split at h
    · next e' hp =>
      simp only [Except.error.injEq] at h
      rw [← h]
      exact populate_error_ne hp
    · split at h
      · next e' hr =>
        simp only [Except.error.injEq] at h
        rw [← h]
        exact get_requirements_error_ne hr
      · exact absurd h (by simp)

theorem tightenAux_error_ne :
    ∀ (items : ConstraintTable) (net : Net) (st : RoundState) (e : PipimiError),
      tightenAux net st items = .error e → e ≠ .assertionFailed := by
  intro items
  induction items with
  | nil => intro net st e h; exact absurd h (by simp [tightenAux])
  | cons item rest ih =>
    intro net st e h
    rw [tightenAux] at h
    cases hp : processPackage net st item with
    | error e' =>
      rw [hp] at h
      simp only [Except.error.injEq] at h
      rw [← h]
      exact processPackage_error_ne hp
    | ok st1 =>
      rw [hp] at h
      exact ih net st1 e h

theorem tighten_error_ne {net : Net} {pv : Pypiverse} {d : Disk} {cons : ConstraintTable}
    {e : PipimiError} (h : tighten_constraints net pv d cons = .error e) :
    e ≠ .assertionFailed := by
  simp only [tighten_constraints] at h
  split at h
  · next e' ha =>
    simp only [Except.error.injEq] at h
    rw [← h]
    exact tightenAux_error_ne cons net _ e' ha
  · exact absurd h (by simp)

theorem tightenAux_res_ne_nil :
    ∀ (items : ConstraintTable) (net : Net) (st st' : RoundState),
      tightenAux net st items = .ok st' → (items ≠ [] ∨ st.resolution ≠ []) →
      st'.resolution ≠ [] := by
  intro items
  induction items with
  | nil =>
    intro net st st' h hne
    simp only [tightenAux, Except.ok.injEq] at h
    rw [← h]
    rcases hne with h1 | h1
    · exact absurd rfl h1
    · exact h1
  | cons item rest ih =>
    intro net st st' h hne
    rw [tightenAux] at h
    cases hp : processPackage net st item with
    | error e => rw [hp] at h; exact absurd h (by simp)
    | ok st1 =>
      rw [hp] at h
      obtain ⟨v, reqs, hres, _⟩ := processPackage_ok_resolution hp
      refine ih net st1 st' h (Or.inr ?_)
      rw [hres]
      exact setA_ne_nil _ _ _

theorem tighten_res_ne_nil {net : Net} {pv : Pypiverse} {d : Disk} {cons : ConstraintTable}
    {r : Resolution} {newc : NewConstraints} {pv' : Pypiverse} {d' : Disk}
    (h : tighten_constraints net pv d cons = .ok (r, newc, pv', d')) (hc : cons ≠ []) :
    r ≠ [] := by
  simp only [tighten_constraints] at h
  split at h
  · exact absurd h (by simp)
  · next st ha =>
    simp only [Except.ok.injEq, Prod.mk.injEq] at h
    rw [← h.1]
    exact tightenAux_res_ne_nil cons net _ st ha (Or.inl hc)

theorem merge_ne_nil :
    ∀ (newc : NewConstraints) (cons : ConstraintTable), cons ≠ [] →
      mergeConstraints cons newc ≠ [] := by
  intro newc
  induction newc with
  | nil => intro cons hc; exact hc
  | cons p rest ih =>
    intro cons hc
    simp only [mergeConstraints]
    exact ih _ (setA_ne_nil _ _ _)

theorem loop_nonempty :
    ∀ (fuel : Nat) (net : Net) (pv : Pypiverse) (d : Disk) (cons : ConstraintTable)
      (last : Option Resolution),
      cons ≠ [] → (∀ l, last = some l → l ≠ []) →
      (pipimiLoop net fuel pv d cons last ≠ .error .assertionFailed ∧
       ∀ r c, pipimiLoop net fuel pv d cons last = .ok (some (r, c)) → r ≠ []) := by
  intro fuel
  induction fuel with
  | zero =>
    intro net pv d cons last hc hl
    exact ⟨by simp [pipimiLoop], fun r c h => by simp [pipimiLoop] at h⟩
  | succ fuel ih =>
    intro net pv d cons last hc hl
    rw [pipimiLoop]
    cases ht : tighten_constraints net pv d cons with
    | error e =>
      refine ⟨fun h => ?_, fun r c h => by simp at h⟩
      simp only [Except.error.injEq] at h
      exact tighten_error_ne ht h
    | ok out =>
      obtain ⟨res, newc, pv', disk'⟩ := out
      have hres : res ≠ [] := tighten_res_ne_nil ht hc
      have hmerge : mergeConstraints cons newc ≠ [] := merge_ne_nil newc cons hc
      cases last with
      | none =>
        simp only
        exact ih net pv' disk' _ _ hmerge (fun l hl2 => by
          injection hl2 with hl3
          rw [← hl3]
          exact hres)
      | some l =>
        have hlne : l ≠ [] := hl l rfl
        simp only
        by_cases hdb : dictBeq res l = true
        · rw [if_pos hdb]
          rw [if_neg (by simpa [List.isEmpty_iff] using hlne)]
          refine ⟨by simp, fun r c h => ?_⟩
          simp only [Except.ok.injEq, Option.some.injEq, Prod.mk.injEq] at h
          rw [← h.1]
          exact hlne
        · rw [if_neg hdb]
          exact ih net pv' disk' _ _ hmerge (fun l2 hl2 => by
            injection hl2 with hl3
            rw [← hl3]
            exact hres)

/-- C9. Seeding with no requirement strings converges on the empty resolution
in two rounds and fails the final `assert` with an `AssertionError`; a
nonempty seed can never fail that assertion, and whenever it converges the
returned resolution is nonempty. -/
theorem claim_C9 :
    (∀ (net : Net) (disk : Disk) (fuel : Nat),
      pipimi net disk [] (fuel + 2) = .error .assertionFailed) ∧
    (∀ (net : Net) (disk : Disk) (seeds : List String) (fuel : Nat),
      seeds ≠ [] →
      pipimi net disk seeds fuel ≠ .error .assertionFailed ∧
      ∀ r c, pipimi net disk seeds fuel = .ok (some (r, c)) → r ≠ []) := by
  constructor
  · intro net disk fuel
    rfl
  · intro net disk seeds fuel hs
    unfold pipimi
    cases hseed : seedConstraints seeds [] with
    | error e =>
      refine ⟨fun h => ?_, fun r c h => by simp at h⟩
      simp only [Except.error.injEq] at h
      exact seed_error_ne seeds [] e hseed h
    | ok cons =>
      have hc : cons ≠ [] := seed_ne_nil seeds [] cons hseed (Or.inr hs)
      exact loop_nonempty fuel net ⟨[]⟩ disk cons none hc (fun l hl => by cases hl)

/-- Witness for C9: the end-to-end seed is nonempty, its run does not trip
the assertion, and its converged resolution is nonempty. -/
theorem claim_C9_witness :
    pipimi netE2E ⟨[]⟩ ["pkgA>=1.0"] 5 ≠ .error .assertionFailed ∧
    ([("pkgA", "2.0"), ("pkgB", "1.0")] : Resolution) ≠ [] :=
  ⟨(claim_C9.2 netE2E ⟨[]⟩ ["pkgA>=1.0"] 5 (by decide)).1,
   (claim_C9.2 netE2E ⟨[]⟩ ["pkgA>=1.0"] 5 (by decide)).2
     [("pkgA", "2.0"), ("pkgB", "1.0")]
     [("pkgA", [[Specifier.mk .ge "1.0"]]), ("pkgB", [[Specifier.mk .lt "1.5"]])] (by decide)⟩

/-! ## Claim C6: the round never touches the live table; accumulators are
separate and merged only after the round -/

theorem applyDer_append :
    ∀ (s1 s2 : List (String × SpecifierSet)) (acc : NewConstraints),
      applyDer acc (s1 ++ s2) = applyDer (applyDer acc s1) s2 := by
  intro s1
  induction s1 with
  | nil => intro s2 acc; rfl
  | cons p rest ih => intro s2 acc; simp [applyDer, ih]

theorem addReqs_eq_applyDer :
    ∀ (reqs : List Requirement) (acc : NewConstraints),
      addReqs acc reqs =
        applyDer acc ((reqs.filter fun r => r.marker.isNone).map fun r => (r.name, r.specifier)) := by
  intro reqs
  induction reqs with
  | nil => intro acc; rfl
  | cons r rest ih =>
    intro acc
    cases hm : r.marker with
    | some m => simp [addReqs, List.filter_cons, hm, ih]
    | none => simp [addReqs, List.filter_cons, hm, ih, applyDer]

theorem tightenAux_eq_roundOps :
    ∀ (items : ConstraintTable) (net : Net) (pv : Pypiverse) (d : Disk)
      (res0 : Resolution) (newc0 : NewConstraints),
      tightenAux net ⟨pv, d, res0, newc0⟩ items =
        (roundOps net pv d items).map fun x =>
          ⟨x.pv, x.disk, applySel res0 x.sel, applyDer newc0 x.der⟩ := by
  intro items
  induction items with
  | nil => intro net pv d res0 newc0; rfl
  | cons item rest ih =>
    intro net pv d res0 newc0
    rw [tightenAux, roundOps]
    simp only [processPackage]
    cases hg : get_best_constrained_version net pv d item.1 item.2 with
    | error e => simp [Except.map]
    | ok out =>
      obtain ⟨pkg, version, pv1, d1⟩ := out
      simp only
      cases hp : populate net pv1 d1 pkg.name (some version) true with
      | error e => simp [Except.map]
      | ok out2 =>
        obtain ⟨pkg2, pv2, d2, n2⟩ := out2
        simp only
        cases hr : pkg2.get_requirements version with
        | error e => simp [Except.map]
        | ok reqs =>
          simp only
          rw [ih]
          cases hro : roundOps net pv2 d2 rest with
          | error e => simp [Except.map]
          | ok tail =>
            simp only [Except.map]
            rw [applyDer_append, ← addReqs_eq_applyDer]
            rfl

theorem tighten_eq_roundOps (net : Net) (pv : Pypiverse) (d : Disk) (cons : ConstraintTable) :
    tighten_constraints net pv d cons =
      (roundOps net pv d cons).map fun x =>
        (applySel [] x.sel, applyDer [] x.der, x.pv, x.disk) := by
  rw [tighten_constraints, tightenAux_eq_roundOps]
  cases roundOps net pv d cons with
  | error e => rfl
  | ok x => rfl

theorem roundOps_append :
    ∀ (c1 : ConstraintTable) (net : Net) (pv : Pypiverse) (d : Disk) (c2 : ConstraintTable),
      roundOps net pv d (c1 ++ c2) =
        (roundOps net pv d c1).bind fun x =>
          (roundOps net x.pv x.disk c2).map fun y =>
            ⟨x.sel ++ y.sel, x.der ++ y.der, y.pv, y.disk⟩ := by
  intro c1
  induction c1 with
  | nil =>
    intro net pv d c2
    have h1 : roundOps net pv d ([] : ConstraintTable) = .ok ⟨[], [], pv, d⟩ := rfl
    rw [List.nil_append, h1]
    simp only [Except.bind]
    cases hro : roundOps net pv d c2 with
    | error e => simp [Except.map]
    | ok y => simp [Except.map]
  | cons item rest ih =>
    intro net pv d c2
    rw [List.cons_append, roundOps, roundOps]
    cases hg : get_best_constrained_version net pv d item.1 item.2 with
    | error e => rfl
    | ok out =>
      obtain ⟨pkg, version, pv1, d1⟩ := out
      simp only
      cases hp : populate net pv1 d1 pkg.name (some version) true with
      | error e => rfl
      | ok out2 =>
        obtain ⟨pkg2, pv2, d2, n2⟩ := out2
        simp only
        cases hr : pkg2.get_requirements version with
        | error e => rfl
        | ok reqs =>
          simp only
          rw [ih]
          cases hx : roundOps net pv2 d2 rest with
          | error e => rfl
          | ok x =>
            simp only [Except.bind]
            cases hy : roundOps net x.pv x.disk c2 with
            | error e => rfl
            | ok y => simp [Except.map]

/-- C6. One round is the accumulator-free computation `roundOps` — which
threads only the universe and disk — with the resolution and the
newly-derived-constraints accumulator replayed from empty on the side, so a
package's selection never reads them; processing a split table is processing
the two halves in sequence with the assignment and derivation sequences
appended, so the left half's derived constraints are invisible to the right
half; and the engine merges the accumulator into the live table only after
the whole round, feeding the merged table exclusively to the next round. -/
theorem claim_C6 :
    (∀ (net : Net) (pv : Pypiverse) (d : Disk) (cons : ConstraintTable),
      tighten_constraints net pv d cons =
        (roundOps net pv d cons).map fun x =>
          (applySel [] x.sel, applyDer [] x.der, x.pv, x.disk)) ∧
    (∀ (net : Net) (pv : Pypiverse) (d : Disk) (c1 c2 : ConstraintTable),
      roundOps net pv d (c1 ++ c2) =
        (roundOps net pv d c1).bind fun x =>
          (roundOps net x.pv x.disk c2).map fun y =>
            ⟨x.sel ++ y.sel, x.der ++ y.der, y.pv, y.disk⟩) ∧
    (∀ (net : Net) (fuel : Nat) (pv : Pypiverse) (d : Disk) (cons : ConstraintTable)
      (last : Option Resolution),
      pipimiLoop net (fuel + 1) pv d cons last =
        match tighten_constraints net pv d cons with
        | .error e => .error e
        | .ok (res, newc, pv', d') =>
          match last with
          | some l =>
            if dictBeq res l then
              if l.isEmpty then .error .assertionFailed
              else .ok (some (l, mergeConstraints cons newc))
            else pipimiLoop net fuel pv' d' (mergeConstraints cons newc) (some res)
          | none => pipimiLoop net fuel pv' d' (mergeConstraints cons newc) (some res)) :=
  ⟨tighten_eq_roundOps,
   fun net pv d c1 c2 => roundOps_append c1 net pv d c2,
   fun net fuel pv d cons last => by rw [pipimiLoop]⟩

/-! ## Claim C8: `versions` versus the keys of `version_infos` -/

theorem wfDisk_set_index {disk : Disk} {nm : String} {b : Blob}
    (hd : wfDisk disk) (hb : b.info.version ∈ b.releases) :
    wfDisk ⟨setA disk.entries (nm, none) b⟩ := by
  constructor
  · intro n b' h
    by_cases hk : ((n, none) : String × Option String) = (nm, none)
    · rw [hk, lookupA_setA_self] at h
      injection h with h2
      rw [← h2]
      exact hb
    · rw [lookupA_setA_ne _ _ _ _ hk] at h
      exact hd.1 n b' h
  · intro n v b' h
    have hk : ((n, some v) : String × Option String) ≠ (nm, none) := by simp
    rw [lookupA_setA_ne _ _ _ _ hk] at h
    exact hd.2 n v b' h

theorem wfDisk_set_detail {disk : Disk} {nm v0 : String} {b : Blob}
    (hd : wfDisk disk) (hb : b.info.version = v0) :
    wfDisk ⟨setA disk.entries (nm, some v0) b⟩ := by
  constructor
  · intro n b' h
    have hk : ((n, none) : String × Option String) ≠ (nm, some v0) := by simp
    rw [lookupA_setA_ne _ _ _ _ hk] at h
    exact hd.1 n b' h
  · intro n v b' h
    by_cases hk : ((n, some v) : String × Option String) = (nm, some v0)
    · rw [hk, lookupA_setA_self] at h
      injection h with h2
      rw [← h2, hb]
      have := (Prod.mk.injEq _ _ _ _).mp hk
      injection this.2 with h3
      rw [h3]
    · rw [lookupA_setA_ne _ _ _ _ hk] at h
      exact hd.2 n v b' h

theorem gpd_wf_index {net : Net} {name : String} {flag : Bool} {disk : Disk}
    {b : Blob} {d' : Disk} {n : Nat}
    (hnet : wfNet net) (hdisk : wfDisk disk)
    (h : get_pypi_data net name none flag disk = .ok (b, d', n)) :
    b.info.version ∈ b.releases ∧ wfDisk d' := by
  simp only [get_pypi_data, normVer] at h
  split at h
  · next b0 heq =>
    simp only [Except.ok.injEq, Prod.mk.injEq] at h
    obtain ⟨rfl, rfl, rfl⟩ := h
    cases flag with
    | false => simp at heq
    | true =>
      simp only [if_pos] at heq
      exact ⟨hdisk.1 _ _ heq, hdisk⟩
  · next heq =>
    split at h
    · next data hf =>
      simp only [Except.ok.injEq, Prod.mk.injEq] at h
      obtain ⟨rfl, rfl, rfl⟩ := h
      have hw := hnet.1 _ _ hf
      exact ⟨hw, wfDisk_set_index hdisk hw⟩
    · exact absurd h (by simp)

theorem normVer_some {ver : Option String} {v : String} (h : normVer ver = some v) :
    v.isEmpty = false := by
  cases ver with
  | none => simp [normVer] at h
  | some v0 =>
    simp only [normVer] at h
    by_cases he : v0.isEmpty
    · rw [if_pos he] at h; exact absurd h (by simp)
    · rw [if_neg he] at h
      injection h with h2
      rw [← h2]
      cases hb : v0.isEmpty
      · rfl
      · exact absurd hb he

theorem gpd_wf_detail {net : Net} {name v : String} {flag : Bool} {disk : Disk}
    {b : Blob} {d' : Disk} {n : Nat}
    (hnet : wfNet net) (hdisk : wfDisk disk) (hv : v.isEmpty = false)
    (h : get_pypi_data net name (some v) flag disk = .ok (b, d', n)) :
    b.info.version = v ∧ wfDisk d' := by
  simp only [get_pypi_data, normVer, hv, Bool.false_eq_true, if_neg, not_false_iff] at h
  split at h
  · next b0 heq =>
    simp only [Except.ok.injEq, Prod.mk.injEq] at h
    obtain ⟨rfl, rfl, rfl⟩ := h
    cases flag with
    | false => simp at heq
    | true =>
      simp only [if_pos] at heq
      exact ⟨hdisk.2 _ _ _ heq, hdisk⟩
  · next heq =>
    split at h
    · next data hf =>
      simp only [Except.ok.injEq, Prod.mk.injEq] at h
      obtain ⟨rfl, rfl, rfl⟩ := h
      have hw := hnet.2 _ _ _ hf
      exact ⟨hw, wfDisk_set_detail hdisk hw⟩
    · exact absurd h (by simp)

theorem pvInv_setA {pv : Pypiverse} {k : String} {p : Package}
    (h : pvInv pv) (hp : pkgInv p) : pvInv ⟨setA pv.packages k p⟩ := by
  intro q hq
  rcases mem_setA _ _ _ _ hq with h1 | h1
  · exact h q h1
  · rw [h1]; exact hp

theorem pkgInv_ofBlob {b : Blob} (hb : b.info.version ∈ b.releases) :
    pkgInv (Package.ofBlob b) := by
  intro v hv
  simp only [Package.ofBlob, Package.add_version_info, setA, List.map_cons, List.map_nil,
    List.mem_singleton] at hv
  rw [hv]
  exact hb

theorem pkgInv_add {pkg : Package} {b : Blob}
    (h : pkgInv pkg) (hmem : b.info.version ∈ pkg.versions) :
    pkgInv (pkg.add_version_info b) := by
  intro v hv
  simp only [Package.add_version_info] at hv
  rw [map_fst_setA] at hv
  by_cases hk : b.info.version ∈ pkg.version_infos.map Prod.fst
  · rw [if_pos hk] at hv
    exact h v hv
  · rw [if_neg hk] at hv
    rcases List.mem_append.mp hv with h1 | h1
    · exact h v h1
    · simp only [List.mem_singleton] at h1
      rw [h1]
      exact hmem

/-- C8 (amended). Provided every index response's `info.version` is among
its releases, every version-detail response (fresh or cached) echoes the
requested version, and version-detail population is only requested for
versions in the package's release set, every populate call preserves the
invariant that each held package's `versions` is a superset of the keys of
its `version_infos` (and disk well-formedness, so the guarantee persists
across any sequence of such operations). -/
theorem claim_C8 :
    ∀ (net : Net) (pv : Pypiverse) (disk : Disk) (name : String) (ver : Option String)
      (flag : Bool) (pkg' : Package) (pv' : Pypiverse) (d' : Disk) (n : Nat),
      wfNet net → wfDisk disk → pvInv pv →
      populate net pv disk name ver flag = .ok (pkg', pv', d', n) →
      (∀ v, normVer ver = some v → v ∈ pkg'.versions) →
      pkgInv pkg' ∧ pvInv pv' ∧ wfDisk d' := by
  intro net pv disk name ver flag pkg' pv' d' n hnet hdisk hpv h hver
  simp only [populate] at h
  split at h
  · exact absurd h (by simp)
  · next pkg pv1 disk1 n1 heq =>
    have hstep : pkgInv pkg ∧ pvInv pv1 ∧ wfDisk disk1 := by
      split at heq
      · next pkg0 hlk =>
        simp only [Except.ok.injEq, Prod.mk.injEq] at heq
        obtain ⟨rfl, rfl, rfl, rfl⟩ := heq
        cases flag with
        | false => simp at hlk
        | true =>
          simp only [if_pos] at hlk
          exact ⟨hpv _ (mem_of_lookupA _ _ _ hlk), hpv, hdisk⟩
      · split at heq
        · exact absurd heq (by simp)
        · next blob disk'' n'' hg =>
          simp only [Except.ok.injEq, Prod.mk.injEq] at heq
          obtain ⟨rfl, rfl, rfl, rfl⟩ := heq
          obtain ⟨hw, hd⟩ := gpd_wf_index hnet hdisk hg
          exact ⟨pkgInv_ofBlob hw, pvInv_setA hpv (pkgInv_ofBlob hw), hd⟩
    obtain ⟨hpkg, hpv1, hd1⟩ := hstep
    split at h
    · simp only [Except.ok.injEq, Prod.mk.injEq] at h
      obtain ⟨rfl, rfl, rfl, rfl⟩ := h
      exact ⟨hpkg, hpv1, hd1⟩
    · next v hnv =>
      split at h
      · simp only [Except.ok.injEq, Prod.mk.injEq] at h
        obtain ⟨rfl, rfl, rfl, rfl⟩ := h
        exact ⟨hpkg, hpv1, hd1⟩
      · split at h
        · exact absurd h (by simp)
        · next blob2 disk2 n2 hg =>
          simp only [Except.ok.injEq, Prod.mk.injEq] at h
          obtain ⟨rfl, rfl, rfl, rfl⟩ := h
          obtain ⟨hecho, hd2⟩ := gpd_wf_detail hnet hd1 (normVer_some hnv) hg
          have hvmem : v ∈ pkg.versions := hver v hnv
          have hpkg' : pkgInv (pkg.add_version_info blob2) :=
            pkgInv_add hpkg (by rw [hecho]; exact hvmem)
          exact ⟨hpkg', pvInv_setA hpv1 hpkg', hd2⟩

/-- C8 counterexample: with a registry whose index response's `info.version`
(2.0) is not among its releases ({1.0}), a single populate yields a package
whose `version_infos` has the key 2.0 while `versions` is {1.0} — the
claimed superset invariant fails after this sequence of operations. -/
theorem claim_C8_counterexample :
    populate netC8 ⟨[]⟩ ⟨[]⟩ "a" none true =
      .ok (⟨"a", ["1.0"], [("2.0", ⟨"a", "2.0", []⟩)]⟩,
        ⟨[("a", ⟨"a", ["1.0"], [("2.0", ⟨"a", "2.0", []⟩)]⟩)]⟩,
        ⟨[(("a", none), ⟨⟨"a", "2.0", []⟩, ["1.0"]⟩)]⟩, 1) ∧
    ¬ pkgInv ⟨"a", ["1.0"], [("2.0", ⟨"a", "2.0", []⟩)]⟩ := by
  constructor
  · decide
  · intro h
    exact absurd (h "2.0" (by simp)) (by simp)

/-- Witness for C8: against a well-formed registry, a populate from empty
states yields a package, universe and disk satisfying the invariant. -/
theorem claim_C8_witness :
    pkgInv ⟨"a", ["1.0"], [("1.0", ⟨"a", "1.0", []⟩)]⟩ ∧
    pvInv ⟨[("a", ⟨"a", ["1.0"], [("1.0", ⟨"a", "1.0", []⟩)]⟩)]⟩ ∧
    wfDisk ⟨[(("a", none), ⟨⟨"a", "1.0", []⟩, ["1.0"]⟩)]⟩ := by
  refine claim_C8 netG ⟨[]⟩ ⟨[]⟩ "a" none true
    ⟨"a", ["1.0"], [("1.0", ⟨"a", "1.0", []⟩)]⟩
    ⟨[("a", ⟨"a", ["1.0"], [("1.0", ⟨"a", "1.0", []⟩)]⟩)]⟩
    ⟨[(("a", none), ⟨⟨"a", "1.0", []⟩, ["1.0"]⟩)]⟩ 1
    ⟨?_, ?_⟩ ⟨?_, ?_⟩ ?_ (by decide) ?_
  · intro n b h
    simp only [netG] at h
    by_cases hn : n = "a"
    · rw [if_pos hn] at h
      injection h with h2
      rw [← h2]
      simp
    · rw [if_neg hn] at h
      exact absurd h (by simp)
  · intro n v b h
    simp only [netG] at h
    by_cases hn : n = "a"
    · rw [if_pos hn] at h
      injection h with h2
      rw [← h2]
    · rw [if_neg hn] at h
      exact absurd h (by simp)
  · intro n b h
    simp [lookupA] at h
  · intro n v b h
    simp [lookupA] at h
  · intro p hp
    simp at hp
  · intro v hv
    simp [normVer] at hv

/-! ## Claim C10: the resolver's working state is case-sensitive; the
universe is keyed by lower-cased names -/

/-- C10. Seeding the same package under two spellings (`PkgA`, `pkga`) keeps
two distinct entries — both in the constraint table and in the converged
resolution — keyed exactly as written; yet one round against those two names
leaves a universe and a disk cache with a single entry under the lower-cased
name, and populating again under the mixed-case spelling is an in-memory
cache hit making zero network calls. -/
theorem claim_C10 :
    pipimi net10 ⟨[]⟩ ["PkgA>=1.0", "pkga>=1.0"] 4 =
      .ok (some ([("PkgA", "1.0"), ("pkga", "1.0")],
        [("PkgA", [[Specifier.mk .ge "1.0"]]), ("pkga", [[Specifier.mk .ge "1.0"]])])) ∧
    tighten_constraints net10 ⟨[]⟩ ⟨[]⟩
        [("PkgA", [[Specifier.mk .ge "1.0"]]), ("pkga", [[Specifier.mk .ge "1.0"]])] =
      .ok ([("PkgA", "1.0"), ("pkga", "1.0")], [],
        ⟨[("pkga", ⟨"pkga", ["1.0"], [("1.0", ⟨"PkgA", "1.0", []⟩)]⟩)]⟩,
        ⟨[(("pkga", none), ⟨⟨"PkgA", "1.0", []⟩, ["1.0"]⟩)]⟩) ∧
    populate net10
        ⟨[("pkga", ⟨"pkga", ["1.0"], [("1.0", ⟨"PkgA", "1.0", []⟩)]⟩)]⟩
        ⟨[(("pkga", none), ⟨⟨"PkgA", "1.0", []⟩, ["1.0"]⟩)]⟩ "PkgA" none true =
      .ok (⟨"pkga", ["1.0"], [("1.0", ⟨"PkgA", "1.0", []⟩)]⟩,
        ⟨[("pkga", ⟨"pkga", ["1.0"], [("1.0", ⟨"PkgA", "1.0", []⟩)]⟩)]⟩,
        ⟨[(("pkga", none), ⟨⟨"PkgA", "1.0", []⟩, ["1.0"]⟩)]⟩, 0) := by
  refine ⟨by decide, by decide, by decide⟩

end Pipimi
